import Mathlib

/-!
# Verification of the polloeskadroona updater (manifest-driven file synchronizer)

Shallow embedding of `main.go`: the reconciliation engine (`updateFiles`),
the manifest builder (`createRepo`), the streaming hasher (`calculateHash`),
the path-safety check (`repositoryFile.HasValidPath`) and the manifest
decoder (`getRepositoryContent`).

Modelling conventions:
* Go strings are Lean `String`s; character-level path algorithms work on
  `String.data : List Char`.
* File bytes are `Nat`s (values < 256 in any real stream); a file's content
  is a `List Nat`.
* The filesystem is a list of nodes (`GoFile`), each a path (slash-separated,
  exactly the string the program would use to address it), a directory flag
  and, for regular files, a content.  `os.Open`/`os.Stat` are lookups by
  path string; `filepath.Walk root` enumerates the nodes at or under `root`.
* The SHA-1/hex digest pipeline is modelled by `digestOf`, an injective
  encoding of the byte sequence actually fed to the hasher
  (`hashedBytes`): the cryptographic compression itself is treated as
  collision-free, which is the spec's stated intent, while the chunked
  *feeding* of bytes — where the interesting behaviour lives — is modelled
  exactly as the Go loop performs it.
* Network I/O is an oracle: `http.Get` is a function from URL to a
  `FetchResult` (connection error, or a status code and body).
* The fetched manifest payload is an `Option Json`: `none` is a
  syntactically invalid byte payload (Go's `json.Unmarshal` validates the
  whole input before decoding, so a syntax error leaves the target at its
  zero value), `some j` a syntactically valid JSON document `j`.
-/

namespace Updater

/-- A manifest entry: `repositoryFile` from main.go (`Name`, `Hash`). -/
structure repositoryFile where
  Name : String
  Hash : String
deriving DecidableEq, Repr

/-- The wire-format manifest: `repository` from main.go.  `Files` is the
decoded `[][]string`. -/
structure repository where
  DownloadRoot : String
  Files : List (List String)
deriving DecidableEq, Repr

/-- One filesystem node: a path (the exact string the program uses to
address it), whether it is a directory, and its content (meaningful for
regular files only). -/
structure GoFile where
  path : String
  isDir : Bool
  content : List Nat
deriving DecidableEq, Repr

/-- The local filesystem: a finite list of nodes. -/
abbrev FS := List GoFile

/-! ## The hasher: `calculateHash` (main.go lines 292-305)

The Go loop allocates a 1 MiB buffer, repeatedly calls `f.Read(data)`,
breaks on `io.EOF`, and calls `hash.Write(data)` — the **whole** buffer,
ignoring the byte count the read returned.  `hashedBytes` reproduces the
byte sequence this loop feeds into the SHA-1 state: each iteration the next
(up to 1 MiB) chunk of the stream overwrites the front of the buffer, the
rest of the buffer keeps its previous bytes, and the full buffer is fed.
`os.File.Read` is modelled as returning `min(len(buffer), remaining)` bytes
and reporting `io.EOF` (with 0 bytes) once the stream is exhausted.
The `fuel` argument only bounds the recursion; it is chosen large enough
that it never runs out (each iteration consumes at least one byte). -/

def bufSize : Nat := 1024 * 1024

def hashedBytesAux : Nat → List Nat → List Nat → List Nat
  | _, _, [] => []
  | 0, _, _ :: _ => []
  | fuel + 1, buffer, b :: rest =>
      let chunk := (b :: rest).take bufSize
      let buffer2 := chunk ++ buffer.drop chunk.length
      buffer2 ++ hashedBytesAux fuel buffer2 ((b :: rest).drop bufSize)

/-- The byte sequence `calculateHash` feeds to the SHA-1 state when run on
a stream whose bytes are `content`. -/
def hashedBytes (content : List Nat) : List Nat :=
  hashedBytesAux (content.length + 1) (List.replicate bufSize 0) content

/-- Injective encoding standing for `hex.EncodeToString(sha1(fed bytes))`:
SHA-1 plus hex is treated as a collision-free encoding of the byte
sequence fed to it (the spec demands a cryptographic hash precisely so that
equal digests mean equal bytes). -/
def digestOf (bs : List Nat) : String :=
  String.mk (bs.map (fun b => Char.ofNat (b % 256)))

/-- `calculateHash` (main.go): digest of the bytes the chunked read loop
feeds to the hasher for a stream with bytes `content`. -/
def calculateHash (content : List Nat) : String :=
  digestOf (hashedBytes content)

/-- `repositoryFile.CheckHash` (main.go lines 42-44): hash the (freshly
rewound) file content and compare with the manifest hash. -/
def repositoryFile.CheckHash (f : repositoryFile) (content : List Nat) : Bool :=
  decide (calculateHash content = f.Hash)

/-! ## Path model: `strings.Split`, `path.Clean`, `filepath.Abs`,
`strings.Contains` -/

/-- `strings.Split(s, "/")` on the character list of `s`:
always returns at least one (possibly empty) segment. -/
def splitSegs : List Char → List (List Char)
  | [] => [[]]
  | c :: cs =>
    match splitSegs cs with
    | [] => [[c]]
    | s :: rest => if c = '/' then [] :: s :: rest else (c :: s) :: rest

/-- Join segments back with `'/'` separators (inverse of `splitSegs`). -/
def joinSegs : List (List Char) → List Char
  | [] => []
  | [s] => s
  | s :: rest => s ++ '/' :: joinSegs rest

/-- One step of Go `path.Clean`'s element processing, on a stack of output
segments held in reverse order: empty and `.` segments are dropped; `..`
pops a poppable segment, is dropped at the root, and is kept when there is
nothing left to pop in a relative path; every other segment is pushed. -/
def cleanStep (rooted : Bool) (st : List (List Char)) (seg : List Char) :
    List (List Char) :=
  if seg = [] ∨ seg = ['.'] then st
  else if seg = ['.', '.'] then
    match st with
    | [] => if rooted then [] else [seg]
    | t :: ts => if t = ['.', '.'] then seg :: t :: ts else ts
  else seg :: st

/-- Go `path.Clean` (pure lexical processing; `filepath.Clean` on a
slash-separated path behaves identically on Linux). -/
def goPathClean (p : List Char) : List Char :=
  if p = [] then ['.']
  else
    let rooted : Bool := decide (p.head? = some '/')
    let outSegs := ((splitSegs p).foldl (cleanStep rooted) []).reverse
    let joined := joinSegs outSegs
    if rooted then '/' :: joined
    else if joined = [] then ['.'] else joined

/-- `filepath.Abs` on Linux with working directory `cwd`: an absolute path
is cleaned, a relative one is joined onto `cwd` and cleaned
(`filepath.Join(cwd, p) = Clean(cwd + "/" + p)`); `Getwd` is modelled as
always succeeding, so `Abs` never errors. -/
def filepathAbs (cwd p : List Char) : List Char :=
  if p.head? = some '/' then goPathClean p
  else goPathClean (cwd ++ '/' :: p)

/-- Boolean prefix test on character lists. -/
def isPrefixL : List Char → List Char → Bool
  | [], _ => true
  | _ :: _, [] => false
  | a :: as, b :: bs => a = b && isPrefixL as bs

/-- `strings.Contains s sub`: `sub` occurs as a contiguous substring of
`s` (Go's semantics; `Contains(s, "") = true`). -/
def containsSub : List Char → List Char → Bool
  | [], sub => isPrefixL sub []
  | c :: t, sub => isPrefixL sub (c :: t) || containsSub t sub

/-- The cleaned absolute form of an entry name, as `HasValidPath` computes
it: `path.Clean(filepath.Abs(name))` with working directory `cwd`. -/
def resolvedPath (cwd name : String) : List Char :=
  goPathClean (filepathAbs cwd.data name.data)

/-- `repositoryFile.HasValidPath` (main.go lines 31-40): resolve the
entry's name to an absolute path, clean it, and test whether the result
*contains the working directory as a substring* (`strings.Contains`). -/
def repositoryFile.HasValidPath (f : repositoryFile) (cwd : String) : Bool :=
  containsSub (resolvedPath cwd f.Name) cwd.data

/-- Formalisation of "the resolved path lies strictly inside the working
tree" (spec-side notion, for stating the path-safety claims): the cleaned
absolute path extends `cwd ++ "/"` by a nonempty rest. -/
def insideTree (cwd p : List Char) : Bool :=
  isPrefixL (cwd ++ ['/']) p && decide (p ≠ cwd ++ ['/'])

/-- A path segment with no special meaning to `path.Clean`: nonempty and
neither `.` nor `..` (spec-side notion, for stating the round-trip
claim). -/
def simpleSeg (s : List Char) : Bool :=
  decide (s ≠ []) && decide (s ≠ ['.']) && decide (s ≠ ['.', '.'])

/-- A plain relative slash path: every `/`-separated segment is simple (in
particular the path is nonempty and has no leading, trailing or doubled
slash).  Paths produced by walking a plain relative root directory have
this shape. -/
def simpleRel (p : List Char) : Bool :=
  (splitSegs p).all simpleSeg

/-- A plain absolute working directory: a leading `/` followed by a plain
relative path (e.g. `/home/user/game`). -/
def cwdOk (cwd : String) : Bool :=
  match cwd.data with
  | [] => false
  | c :: rest => decide (c = '/') && simpleRel rest

/-- `stringInSlice` (main.go lines 95-102). -/
def stringInSlice (a : String) (list : List String) : Bool :=
  list.any (fun b => decide (b = a))

/-- The first `/`-separated segment of a name:
`strings.Split(name, "/")[0]`. -/
def firstSegment (name : String) : String :=
  String.mk ((splitSegs name.data).headD [])

/-! ## Observable events of a reconciler run -/

/-- Per-entry classification outcome printed by the first loop of
`updateFiles`: `Download` (missing locally), `OK`, `Download (Changed)`. -/
inductive FileStatus where
  | missing
  | ok
  | changed
deriving DecidableEq, Repr

/-- Observable actions of a run, in program order: opening a local file
for classification, the classification verdict, deleting a file during
pruning, writing a downloaded file. -/
inductive Event where
  | openF (name : String)
  | classify (name : String) (st : FileStatus)
  | remove (p : String)
  | write (name : String)
deriving DecidableEq, Repr

def Event.isClassifyKind : Event → Bool
  | .openF _ => true
  | .classify _ _ => true
  | _ => false

def Event.isRemoveKind : Event → Bool
  | .remove _ => true
  | _ => false

def Event.isWriteKind : Event → Bool
  | .write _ => true
  | _ => false

/-! ## Phase 1: classification and prune-set collection
(main.go lines 119-155) -/

/-- `os.Open(name)` against the modelled filesystem: the node addressed by
exactly this path string, if any. -/
def fsOpen (fs : FS) (name : String) : Option GoFile :=
  fs.find? (fun g => decide (g.path = name))

/-- State threaded through the first loop of `updateFiles`:
the files to download, the prune-directory list, and the events so far. -/
structure ClassifyState where
  downloads : List repositoryFile
  dirs : List String
  events : List Event
deriving DecidableEq, Repr

/-- The classification verdict for one path-valid entry: the local file is
missing (`os.IsNotExist` → `Download`), matches (`OK`), or differs
(`Download (Changed)`).

(Hashing an opened *directory* does not terminate in Go — `read(2)` on a
directory fails with a non-EOF error forever; the model hashes the node's
`content` field in that case.  No theorem below depends on that corner.) -/
def classifyOutcome (fs : FS) (rf : repositoryFile) : FileStatus :=
  match fsOpen fs rf.Name with
  | none => .missing
  | some g => if rf.CheckHash g.content then .ok else .changed

/-- One iteration of the first loop of `updateFiles`: skip entries failing
the path check; record the entry's first path segment for pruning (dedup,
order preserved); open the local file and classify it, appending the entry
to the download list unless it matches. -/
def classifyStep (cwd : String) (fs : FS) (st : ClassifyState)
    (rf : repositoryFile) : ClassifyState :=
  if rf.HasValidPath cwd then
    { downloads := st.downloads ++
        (if classifyOutcome fs rf = .ok then [] else [rf]),
      dirs :=
        if stringInSlice (firstSegment rf.Name) st.dirs then st.dirs
        else st.dirs ++ [firstSegment rf.Name],
      events := st.events ++
        [.openF rf.Name, .classify rf.Name (classifyOutcome fs rf)] }
  else st

/-- The first loop of `updateFiles` over all manifest entries. -/
def classifyPhase (cwd : String) (entries : List repositoryFile) (fs : FS) :
    ClassifyState :=
  entries.foldl (classifyStep cwd fs) ⟨[], [], []⟩

/-! ## Phase 2: pruning (main.go lines 157-184) -/

/-- A walked path lies at or under directory `d`
(`filepath.Walk d` visits exactly these nodes). -/
def underDir (d p : String) : Bool :=
  decide (p = d) || isPrefixL (d.data ++ ['/']) p.data

/-- `filepath.Walk root` against the modelled filesystem. -/
def walkFiles (root : String) (fs : FS) : FS :=
  fs.filter (fun f => underDir root f.path)

/-- The walked path string-equals some manifest entry's `Name`
(the inner loop over `listOfRepositoryFiles`). -/
def belongsToRepo (entries : List repositoryFile) (p : String) : Bool :=
  entries.any (fun rf => decide (rf.Name = p))

/-- Pruning one directory of `directoriesToPrune`: walk it (a missing root
walks nothing, matching the `os.Stat`/`IsNotExist` skip), skip directory
nodes (`info.IsDir()`), and `os.RemoveAll` every walked regular file whose
path equals no manifest entry's `Name`. -/
def pruneStep (entries : List repositoryFile) (st : FS × List Event)
    (d : String) : FS × List Event :=
  let victims := (walkFiles d st.1).filter
    (fun f => !f.isDir && !belongsToRepo entries f.path)
  (st.1.filter (fun f => !victims.any (fun v => decide (v.path = f.path))),
   st.2 ++ victims.map (fun v => Event.remove v.path))

/-- The pruning loop of `updateFiles` over all collected directories. -/
def prunePhase (entries : List repositoryFile) (fs : FS)
    (dirs : List String) : FS × List Event :=
  dirs.foldl (pruneStep entries) (fs, [])

/-! ## Phase 3: downloads (main.go lines 186-240) -/

/-- Result of one `http.Get`: a connection error, or a status code with
the response body's bytes. -/
inductive FetchResult where
  | connError
  | resp (status : Nat) (body : List Nat)
deriving DecidableEq, Repr

/-- `os.OpenFile(p, O_RDWR|O_CREATE|O_TRUNC, 0644)` followed by writing
`content`: truncate-replace the regular file at `p`, or create it. -/
def writeFile (fs : FS) (p : String) (content : List Nat) : FS :=
  if fs.any (fun f => decide (f.path = p)) then
    fs.map (fun f => if f.path = p then { f with content := content } else f)
  else fs ++ [⟨p, false, content⟩]

/-- The node at `p` exists and is a directory (in which case the
`os.OpenFile` above fails and the entry is counted as an error). -/
def isDirAt (fs : FS) (p : String) : Bool :=
  (fsOpen fs p).elim false (fun g => g.isDir)

/-- One iteration of the download loop of `updateFiles`:
`os.MkdirAll` (modelled as always succeeding), `http.Get` of
`downloadRoot + Name`; connection error or non-200 status → count an error
and continue with nothing written; otherwise write the body
(create-or-truncate; opening fails if a directory sits at the target
path), then re-hash the written bytes: a mismatch counts an error but the
file stays on disk. -/
def downloadStep (droot : String) (fetch : String → FetchResult)
    (st : FS × Nat × List Event) (rf : repositoryFile) :
    FS × Nat × List Event :=
  match fetch (droot ++ rf.Name) with
  | .connError => (st.1, st.2.1 + 1, st.2.2)
  | .resp status body =>
      if status ≠ 200 then (st.1, st.2.1 + 1, st.2.2)
      else if isDirAt st.1 rf.Name then (st.1, st.2.1 + 1, st.2.2)
      else
        (writeFile st.1 rf.Name body,
         (if rf.CheckHash body then st.2.1 else st.2.1 + 1),
         st.2.2 ++ [.write rf.Name])

/-- The download loop of `updateFiles` over the pending downloads,
accumulating the filesystem, `downloadErrors`, and write events. -/
def downloadPhase (droot : String) (fetch : String → FetchResult)
    (entries : List repositoryFile) (fs : FS) : FS × Nat × List Event :=
  entries.foldl (downloadStep droot fetch) (fs, 0, [])

/-- Whether processing entry `rf` in the download loop records a failure
(spec-side per-entry view of `downloadStep`, evaluated against a fixed
filesystem): connection error, non-200 status, an unopenable target
(a directory sits at the path), or a post-write checksum mismatch. -/
def dlFails (droot : String) (fetch : String → FetchResult) (fs : FS)
    (rf : repositoryFile) : Bool :=
  match fetch (droot ++ rf.Name) with
  | .connError => true
  | .resp status body =>
      !(decide (status = 200)) || isDirAt fs rf.Name || !(rf.CheckHash body)

/-- Whether processing entry `rf` in the download loop writes the fetched
body to disk: exactly when the transport succeeded with status 200 and the
target could be opened — independent of the checksum verdict. -/
def dlWrites (droot : String) (fetch : String → FetchResult) (fs : FS)
    (rf : repositoryFile) : Bool :=
  match fetch (droot ++ rf.Name) with
  | .connError => false
  | .resp status _ => decide (status = 200) && !(isDirAt fs rf.Name)

/-- The filesystem effect of processing entry `rf` in the download loop:
write the fetched body on a status-200 response to an openable target,
otherwise leave the filesystem unchanged. -/
def dlApply (droot : String) (fetch : String → FetchResult) (fs : FS)
    (rf : repositoryFile) : FS :=
  match fetch (droot ++ rf.Name) with
  | .connError => fs
  | .resp status body =>
      if decide (status = 200) && !(isDirAt fs rf.Name) then
        writeFile fs rf.Name body
      else fs

/-! ## Manifest decoding: `getRepositoryContent` (main.go lines 254-290) -/

/-- A JSON document (already tokenized; syntactic validity of the byte
payload is modelled one level up by `Option Json`). -/
inductive Json where
  | null
  | bool (b : Bool)
  | num (n : Int)
  | str (s : String)
  | arr (elems : List Json)
  | obj (fields : List (String × Json))

/-- Field lookup in a JSON object (Go matches struct field names; the
manifests at issue carry each key once, so first match suffices). -/
def lookupField (fields : List (String × Json)) (k : String) : Option Json :=
  (fields.find? (fun kv => decide (kv.1 = k))).map (fun kv => kv.2)

/-- `encoding/json` decoding of one element of an inner `[]string`:
a non-string leaves the zero value `""` (the decoder records a type error
— which the caller ignores — and keeps going). -/
def decodeStringItem : Json → String
  | .str s => s
  | _ => ""

/-- `encoding/json` decoding of one element of `Files` (`[]string`):
a non-array leaves the zero value `nil`. -/
def decodeFilesItem : Json → List String
  | .arr xs => xs.map decodeStringItem
  | _ => []

/-- `json.Unmarshal(bytes, &data)` into `repository`: a non-object
document (or any decode error — the call's error is ignored) leaves the
corresponding fields at their zero values. -/
def unmarshalRepository : Json → repository
  | .obj fields =>
      { DownloadRoot :=
          match lookupField fields "DownloadRoot" with
          | some (.str s) => s
          | _ => ""
        Files :=
          match lookupField fields "Files" with
          | some (.arr xs) => xs.map decodeFilesItem
          | _ => [] }
  | _ => { DownloadRoot := "", Files := [] }

/-- One iteration of the entry loop of `getRepositoryContent` (main.go
lines 278-288): a 2-element entry `[path, hash]` is appended to the entry
list; any other arity is skipped and a diagnostic
(`"Files entry does not contain 2 items"`) is counted. -/
def parseEntriesStep (st : List repositoryFile × Nat) (e : List String) :
    List repositoryFile × Nat :=
  match e with
  | [n, h] => (st.1 ++ [⟨n, h⟩], st.2)
  | _ => (st.1, st.2 + 1)

/-- The entry loop of `getRepositoryContent`: returns the parsed entries
and the number of skipped-entry diagnostics. -/
def parseEntries (l : List (List String)) : List repositoryFile × Nat :=
  l.foldl parseEntriesStep ([], 0)

/-- Result of fetching the manifest URL: connection error, or a status
code together with the payload (`none` = syntactically invalid JSON). -/
inductive ManifestFetch where
  | connError
  | resp (status : Nat) (body : Option Json)

/-- `getRepositoryContent` (main.go lines 254-290): returns
`(DownloadRoot, parsed entries, diagnostic count)`.  A connection error or
non-200 status returns no entries; an unparseable payload leaves the
`repository` value at its zero value (the `json.Unmarshal` error is
ignored), which also yields no entries. -/
def getRepositoryContent (m : ManifestFetch) :
    String × List repositoryFile × Nat :=
  match m with
  | .connError => ("", [], 0)
  | .resp status body =>
      if status ≠ 200 then ("", [], 0)
      else
        let data : repository := match body with
          | none => { DownloadRoot := "", Files := [] }
          | some j => unmarshalRepository j
        let parsed := parseEntries data.Files
        (data.DownloadRoot, parsed.1, parsed.2)

/-- The fetched manifest payload is structurally invalid at the top level
(spec-side notion, for stating the abort claims): the body is present
(status 200) but is not syntactically valid JSON, is not a JSON object, or
carries a `Files` field that is not an array. -/
def manifestTopInvalid : ManifestFetch → Bool
  | .connError => false
  | .resp status body =>
      if status = 200 then
        match body with
        | none => true
        | some j =>
          match j with
          | .obj fields =>
              match lookupField fields "Files" with
              | some (.arr _) => false
              | some _ => true
              | none => false
          | _ => true
      else false

/-! ## The full reconciler run: `updateFiles` (main.go lines 104-252) -/

/-- The three phases of `updateFiles` after the manifest is in hand:
classification (collecting downloads and prune directories), then pruning,
then downloads; returns the final filesystem, `downloadErrors`, and the
event trace in program order. -/
def reconcile (cwd droot : String) (entries : List repositoryFile)
    (fetch : String → FetchResult) (fs : FS) : FS × Nat × List Event :=
  let c := classifyPhase cwd entries fs
  let p := prunePhase entries fs c.dirs
  let d := downloadPhase droot fetch c.downloads p.1
  (d.1, d.2.1, c.events ++ p.2 ++ d.2.2)

/-- `updateFiles` (main.go): fetch and decode the manifest; if the entry
list is `nil` (no valid entries were appended) return with no filesystem
action at all; otherwise reconcile. -/
def updateFiles (cwd : String) (m : ManifestFetch)
    (fetch : String → FetchResult) (fs : FS) : FS × Nat × List Event :=
  let g := getRepositoryContent m
  if g.2.1 = [] then (fs, 0, [])
  else reconcile cwd g.1 g.2.1 fetch fs

/-! ## The manifest builder: `createRepo` (main.go lines 64-92) -/

/-- The `Files` entries `createRepo(directoryName, …)` accumulates: walk
the directory, skip directory nodes, hash each regular file's bytes and
record `(slash path, hash)` in walk order.  (The surrounding JSON
marshalling and output write are I/O shell, not modelled.) -/
def createRepo (directoryName : String) (fs : FS) : List repositoryFile :=
  (walkFiles directoryName fs).foldl
    (fun acc f =>
      if f.isDir then acc
      else acc ++ [⟨f.path, calculateHash f.content⟩])
    []

/-! ## Supporting lemmas -/

theorem hashedBytesAux_nil (fuel : Nat) (buffer : List Nat) :
    hashedBytesAux fuel buffer [] = [] := by
  cases fuel <;> rfl

theorem hashedBytesAux_cons (fuel : Nat) (buffer : List Nat) (b : Nat)
    (rest : List Nat) :
    hashedBytesAux (fuel + 1) buffer (b :: rest) =
      ((b :: rest).take bufSize ++ buffer.drop ((b :: rest).take bufSize).length)
        ++ hashedBytesAux fuel
            ((b :: rest).take bufSize ++ buffer.drop ((b :: rest).take bufSize).length)
            ((b :: rest).drop bufSize) := rfl

/-- On a one-byte stream, the read loop feeds the byte followed by the
remaining 1 MiB − 1 untouched (zero-initialised) buffer bytes. -/
theorem hashedBytes_singleton (b : Nat) :
    hashedBytes [b] = b :: (List.replicate bufSize 0).drop 1 := by
  show hashedBytesAux ([b].length + 1) (List.replicate bufSize 0) [b] = _
  rw [hashedBytesAux_cons]
  rw [List.take_of_length_le (by norm_num [bufSize])]
  rw [List.drop_eq_nil_of_le
    (by norm_num [bufSize] : ([b] : List Nat).length ≤ bufSize)]
  rw [hashedBytesAux_nil, List.append_nil]
  simp only [List.length_cons, List.length_nil, List.singleton_append,
    Nat.zero_add]

theorem hashedBytes_singleton_length (b : Nat) :
    (hashedBytes [b]).length = bufSize := by
  rw [hashedBytes_singleton]
  rw [List.length_cons, List.length_drop, List.length_replicate]
  have h : 1 ≤ bufSize := by norm_num [bufSize]
  omega

theorem isPrefixL_self_append (a t : List Char) :
    isPrefixL a (a ++ t) = true := by
  induction a with
  | nil => rfl
  | cons c cs ih => simp [isPrefixL, ih]

theorem isPrefixL_of_append_left {a b s : List Char}
    (h : isPrefixL (a ++ b) s = true) : isPrefixL a s = true := by
  induction a generalizing s with
  | nil => rfl
  | cons c cs ih =>
    cases s with
    | nil => simp [isPrefixL] at h
    | cons d ds =>
      simp only [List.cons_append, isPrefixL, Bool.and_eq_true] at h ⊢
      exact ⟨h.1, ih h.2⟩

theorem containsSub_of_isPrefixL {s sub : List Char}
    (h : isPrefixL sub s = true) : containsSub s sub = true := by
  cases s with
  | nil => exact h
  | cons c t => simp [containsSub, h]

theorem classifyStep_invalid (cwd : String) (fs : FS) (st : ClassifyState)
    (rf : repositoryFile) (h : rf.HasValidPath cwd = false) :
    classifyStep cwd fs st rf = st := by
  simp [classifyStep, h]

theorem classifyFoldl_filter (cwd : String) (fs : FS) :
    ∀ (l : List repositoryFile) (st : ClassifyState),
      l.foldl (classifyStep cwd fs) st =
        (l.filter (fun rf => rf.HasValidPath cwd)).foldl
          (classifyStep cwd fs) st := by
  intro l
  induction l with
  | nil => intro st; rfl
  | cons rf rest ih =>
    intro st
    by_cases h : rf.HasValidPath cwd = true
    · simp only [List.foldl_cons, List.filter_cons, h, if_true]
      exact ih _
    · have h' : rf.HasValidPath cwd = false := by simpa using h
      simp only [List.foldl_cons, List.filter_cons, h', if_false,
        Bool.false_eq_true, classifyStep_invalid _ _ _ _ h']
      exact ih _

theorem parseEntriesStep_bad (st : List repositoryFile × Nat)
    (e : List String) (h : e.length ≠ 2) :
    parseEntriesStep st e = (st.1, st.2 + 1) := by
  rcases e with _ | ⟨n, _ | ⟨hh, _ | ⟨x, t⟩⟩⟩
  · rfl
  · rfl
  · exact absurd rfl h
  · rfl

theorem parseEntries_shift (l : List (List String)) :
    ∀ st, l.foldl parseEntriesStep st =
      (st.1 ++ (parseEntries l).1, st.2 + (parseEntries l).2) := by
  induction l with
  | nil => intro st; simp [parseEntries]
  | cons e rest ih =>
    intro st
    have hr : parseEntries (e :: rest) =
        rest.foldl parseEntriesStep (parseEntriesStep ([], 0) e) := rfl
    rw [List.foldl_cons, ih (parseEntriesStep st e), hr,
      ih (parseEntriesStep ([], 0) e)]
    rcases e with _ | ⟨n, _ | ⟨hh, _ | ⟨x, t⟩⟩⟩ <;>
      simp [parseEntriesStep, List.append_assoc, Nat.add_assoc]

theorem parseEntries_skip_bad (l1 l2 : List (List String)) (e : List String)
    (h : e.length ≠ 2) :
    (parseEntries (l1 ++ e :: l2)).1 = (parseEntries (l1 ++ l2)).1 ∧
    (parseEntries (l1 ++ e :: l2)).2 = (parseEntries (l1 ++ l2)).2 + 1 := by
  have hL : parseEntries (l1 ++ e :: l2) =
      l2.foldl parseEntriesStep (parseEntriesStep (parseEntries l1) e) := by
    rw [parseEntries, List.foldl_append, List.foldl_cons]; rfl
  have hR : parseEntries (l1 ++ l2) =
      l2.foldl parseEntriesStep (parseEntries l1) := by
    rw [parseEntries, List.foldl_append]; rfl
  rw [hL, hR, parseEntriesStep_bad _ _ h,
    parseEntries_shift l2 ((parseEntries l1).1, (parseEntries l1).2 + 1),
    parseEntries_shift l2 (parseEntries l1)]
  exact ⟨rfl, by omega⟩

theorem getRepositoryContent_topInvalid (m : ManifestFetch)
    (h : manifestTopInvalid m = true) :
    (getRepositoryContent m).2.1 = [] := by
  cases m with
  | connError => simp [manifestTopInvalid] at h
  | resp status body =>
    by_cases hs : status = 200
    · subst hs
      cases body with
      | none => rfl
      | some j =>
        cases j with
        | obj fields =>
          cases hf : lookupField fields "Files" with
          | none =>
            simp [getRepositoryContent, unmarshalRepository, hf, parseEntries]
          | some v =>
            cases v with
            | arr xs => simp [manifestTopInvalid, hf] at h
            | null =>
              simp [getRepositoryContent, unmarshalRepository, hf, parseEntries]
            | bool b =>
              simp [getRepositoryContent, unmarshalRepository, hf, parseEntries]
            | num n =>
              simp [getRepositoryContent, unmarshalRepository, hf, parseEntries]
            | str s =>
              simp [getRepositoryContent, unmarshalRepository, hf, parseEntries]
            | obj f2 =>
              simp [getRepositoryContent, unmarshalRepository, hf, parseEntries]
        | null => rfl
        | bool b => rfl
        | num n => rfl
        | str s => rfl
        | arr xs => rfl
    · simp only [manifestTopInvalid, if_neg hs] at h
      exact absurd h (by simp)

theorem updateFiles_no_entries (cwd : String) (m : ManifestFetch)
    (fetch : String → FetchResult) (fs : FS)
    (h : (getRepositoryContent m).2.1 = []) :
    updateFiles cwd m fetch fs = (fs, 0, []) := by
  simp [updateFiles, h]

theorem find?_path_writeFile_map (fs : FS) (q : String) (b : List Nat)
    (p : String) :
    (fs.map (fun f => if f.path = q then { f with content := b } else f)).find?
        (fun g => decide (g.path = p)) =
      (fs.find? (fun g => decide (g.path = p))).map
        (fun f => if f.path = q then { f with content := b } else f) := by
  induction fs with
  | nil => rfl
  | cons f rest ih =>
    have hpath : (if f.path = q then { f with content := b } else f).path
        = f.path := by
      by_cases hq : f.path = q <;> simp [hq]
    by_cases hp : f.path = p
    · rw [List.map_cons,
        List.find?_cons_of_pos _ (by rw [hpath]; simp [hp]),
        List.find?_cons_of_pos _ (by simp [hp])]
      rfl
    · rw [List.map_cons,
        List.find?_cons_of_neg _ (by rw [hpath]; simp [hp]),
        List.find?_cons_of_neg _ (by simp [hp]), ih]

/-- Writing a regular file never changes whether a directory sits at any
path: replacing a file's content keeps paths and directory flags, and a
newly created node is a regular file at a previously vacant path. -/
theorem isDirAt_writeFile (fs : FS) (q : String) (b : List Nat)
    (p : String) :
    isDirAt (writeFile fs q b) p = isDirAt fs p := by
  unfold isDirAt writeFile fsOpen
  by_cases h : fs.any (fun f => decide (f.path = q))
  · rw [if_pos h, find?_path_writeFile_map]
    cases hf : fs.find? (fun g => decide (g.path = p)) with
    | none => rfl
    | some g => by_cases hgq : g.path = q <;> simp [hgq]
  · rw [if_neg h, List.find?_append]
    cases hf : fs.find? (fun g => decide (g.path = p)) with
    | some g => rfl
    | none => by_cases hq : q = p <;> simp [hq, List.find?_cons]

theorem isDirAt_dlApply (droot : String) (fetch : String → FetchResult)
    (fs : FS) (rf : repositoryFile) (p : String) :
    isDirAt (dlApply droot fetch fs rf) p = isDirAt fs p := by
  unfold dlApply
  cases hf : fetch (droot ++ rf.Name) with
  | connError => rfl
  | resp status body =>
    dsimp only
    by_cases hc : (decide (status = 200) && !isDirAt fs rf.Name) = true
    · rw [if_pos hc, isDirAt_writeFile]
    · rw [if_neg hc]

theorem dlFails_dlApply (droot : String) (fetch : String → FetchResult)
    (fs : FS) (rf rf' : repositoryFile) :
    dlFails droot fetch (dlApply droot fetch fs rf) rf' =
      dlFails droot fetch fs rf' := by
  unfold dlFails
  cases fetch (droot ++ rf'.Name) with
  | connError => rfl
  | resp status body => rw [isDirAt_dlApply]

theorem dlWrites_dlApply (droot : String) (fetch : String → FetchResult)
    (fs : FS) (rf rf' : repositoryFile) :
    dlWrites droot fetch (dlApply droot fetch fs rf) rf' =
      dlWrites droot fetch fs rf' := by
  unfold dlWrites
  cases fetch (droot ++ rf'.Name) with
  | connError => rfl
  | resp status body => rw [isDirAt_dlApply]

/-- One download iteration, characterised against its incoming state:
the filesystem effect is `dlApply`, one error is counted exactly when
`dlFails`, and one write event is emitted exactly when `dlWrites`. -/
theorem downloadStep_char (droot : String) (fetch : String → FetchResult)
    (st : FS × Nat × List Event) (rf : repositoryFile) :
    downloadStep droot fetch st rf =
      (dlApply droot fetch st.1 rf,
       st.2.1 + (if dlFails droot fetch st.1 rf then 1 else 0),
       st.2.2 ++ (if dlWrites droot fetch st.1 rf then [Event.write rf.Name]
                  else [])) := by
  unfold downloadStep dlApply dlFails dlWrites
  cases hf : fetch (droot ++ rf.Name) with
  | connError => simp
  | resp status body =>
    by_cases hs : status = 200
    · subst hs
      by_cases hd : isDirAt st.1 rf.Name
      · simp [hd]
      · by_cases hc : rf.CheckHash body <;> simp [hd, hc]
    · simp [hs]

theorem downloadFold_shift (droot : String) (fetch : String → FetchResult)
    (l : List repositoryFile) :
    ∀ st : FS × Nat × List Event,
      l.foldl (downloadStep droot fetch) st =
        (l.foldl (dlApply droot fetch) st.1,
         st.2.1 + (l.filter (dlFails droot fetch st.1)).length,
         st.2.2 ++ (l.filter (dlWrites droot fetch st.1)).map
           (fun rf => Event.write rf.Name)) := by
  induction l with
  | nil => intro st; simp
  | cons rf rest ih =>
    intro st
    rw [List.foldl_cons, ih, downloadStep_char]
    have hfails : dlFails droot fetch (dlApply droot fetch st.1 rf) =
        dlFails droot fetch st.1 :=
      funext (fun rf' => dlFails_dlApply droot fetch st.1 rf rf')
    have hwrites : dlWrites droot fetch (dlApply droot fetch st.1 rf) =
        dlWrites droot fetch st.1 :=
      funext (fun rf' => dlWrites_dlApply droot fetch st.1 rf rf')
    rw [hfails, hwrites, List.foldl_cons]
    by_cases hF : dlFails droot fetch st.1 rf = true <;>
      by_cases hW : dlWrites droot fetch st.1 rf = true <;>
      simp [List.filter_cons, hF, hW] <;> omega

theorem classify_events_kind (cwd : String) (fs : FS) :
    ∀ (l : List repositoryFile) (st : ClassifyState),
      (∀ e ∈ st.events, e.isClassifyKind = true) →
      ∀ e ∈ (l.foldl (classifyStep cwd fs) st).events,
        e.isClassifyKind = true := by
  intro l
  induction l with
  | nil => intro st h; simpa using h
  | cons rf rest ih =>
    intro st h
    rw [List.foldl_cons]
    refine ih _ ?_
    intro e he
    unfold classifyStep at he
    by_cases hv : rf.HasValidPath cwd = true
    · rw [if_pos hv] at he
      simp only [List.mem_append, List.mem_cons, List.mem_singleton] at he
      rcases he with he | rfl | rfl | he
      · exact h e he
      · rfl
      · rfl
      · exact absurd he (List.not_mem_nil e)
    · rw [if_neg hv] at he
      exact h e he

theorem prune_events_kind (entries : List repositoryFile) :
    ∀ (dirs : List String) (st : FS × List Event),
      (∀ e ∈ st.2, e.isRemoveKind = true) →
      ∀ e ∈ (dirs.foldl (pruneStep entries) st).2, e.isRemoveKind = true := by
  intro dirs
  induction dirs with
  | nil => intro st h; simpa using h
  | cons d rest ih =>
    intro st h
    rw [List.foldl_cons]
    refine ih _ ?_
    intro e he
    unfold pruneStep at he
    simp only [List.mem_append, List.mem_map] at he
    rcases he with he | ⟨v, hv, rfl⟩
    · exact h e he
    · rfl

theorem download_events_kind (droot : String) (fetch : String → FetchResult) :
    ∀ (l : List repositoryFile) (st : FS × Nat × List Event),
      (∀ e ∈ st.2.2, e.isWriteKind = true) →
      ∀ e ∈ (l.foldl (downloadStep droot fetch) st).2.2,
        e.isWriteKind = true := by
  intro l
  induction l with
  | nil => intro st h; simpa using h
  | cons rf rest ih =>
    intro st h
    rw [List.foldl_cons]
    refine ih _ ?_
    intro e he
    rw [downloadStep_char] at he
    simp only [List.mem_append] at he
    rcases he with he | he
    · exact h e he
    · by_cases hw : dlWrites droot fetch st.1 rf = true
      · rw [if_pos hw] at he
        simp only [List.mem_singleton] at he
        subst he
        rfl
      · rw [if_neg hw] at he
        exact absurd he (List.not_mem_nil e)

theorem updateFiles_eq_reconcile (cwd : String) (m : ManifestFetch)
    (fetch : String → FetchResult) (fs : FS)
    (h : (getRepositoryContent m).2.1 ≠ []) :
    updateFiles cwd m fetch fs =
      reconcile cwd (getRepositoryContent m).1 (getRepositoryContent m).2.1
        fetch fs := by
  simp [updateFiles, h]

theorem reconcile_trace (cwd droot : String) (entries : List repositoryFile)
    (fetch : String → FetchResult) (fs : FS) :
    (reconcile cwd droot entries fetch fs).2.2 =
      (classifyPhase cwd entries fs).events ++
        (prunePhase entries fs (classifyPhase cwd entries fs).dirs).2 ++
        (downloadPhase droot fetch (classifyPhase cwd entries fs).downloads
          (prunePhase entries fs (classifyPhase cwd entries fs).dirs).1).2.2 :=
  rfl

theorem nodup_paths_filter (fs : FS) (p : GoFile → Bool)
    (hnd : (fs.map GoFile.path).Nodup) :
    ((fs.filter p).map GoFile.path).Nodup :=
  ((List.filter_sublist fs).map GoFile.path).nodup hnd

/-- One prune directory's net filesystem effect: on a duplicate-free
filesystem, walking `d` and removing every non-directory walked file that
matches no entry is the same as filtering out exactly those files. -/
theorem pruneStep_fst (entries : List repositoryFile) (fs : FS)
    (ev : List Event) (d : String) (hnd : (fs.map GoFile.path).Nodup) :
    (pruneStep entries (fs, ev) d).1 =
      fs.filter (fun f => !(underDir d f.path &&
        (!f.isDir && !belongsToRepo entries f.path))) := by
  unfold pruneStep
  dsimp only
  apply List.filter_congr
  intro f hf
  have hany : ((walkFiles d fs).filter
        (fun f => !f.isDir && !belongsToRepo entries f.path)).any
          (fun v => decide (v.path = f.path)) =
      (underDir d f.path && (!f.isDir && !belongsToRepo entries f.path)) := by
    rw [Bool.eq_iff_iff]
    simp only [List.any_eq_true, List.mem_filter, walkFiles,
      decide_eq_true_eq, Bool.and_eq_true]
    constructor
    · rintro ⟨v, ⟨⟨hvfs, hvund⟩, hvrest⟩, hvp⟩
      have hveq : v = f := List.inj_on_of_nodup_map hnd hvfs hf hvp
      subst hveq
      exact ⟨hvund, hvrest⟩
    · intro hfp
      exact ⟨f, ⟨⟨hf, hfp.1⟩, hfp.2⟩, rfl⟩
  rw [hany]

/-- The whole pruning loop: on a duplicate-free filesystem it removes
exactly the non-directory files that lie under one of the walked
directories and match no entry. -/
theorem prunePhase_fst (entries : List repositoryFile) :
    ∀ (dirs : List String) (fs : FS) (ev : List Event),
      (fs.map GoFile.path).Nodup →
      (dirs.foldl (pruneStep entries) (fs, ev)).1 =
        fs.filter (fun f => !(dirs.any (fun d => underDir d f.path) &&
          (!f.isDir && !belongsToRepo entries f.path))) := by
  intro dirs
  induction dirs with
  | nil =>
    intro fs ev hnd
    simp
  | cons d rest ih =>
    intro fs ev hnd
    rw [List.foldl_cons]
    have hpair : pruneStep entries (fs, ev) d =
        (fs.filter (fun f => !(underDir d f.path &&
          (!f.isDir && !belongsToRepo entries f.path))),
         (pruneStep entries (fs, ev) d).2) := by
      rw [← pruneStep_fst entries fs ev d hnd]
    rw [hpair, ih _ _ (nodup_paths_filter fs _ hnd), List.filter_filter]
    apply List.filter_congr
    intro f _
    rw [List.any_cons]
    cases hA : underDir d f.path <;>
      cases hB : rest.any (fun d => underDir d f.path) <;>
      cases hZ : (!f.isDir && !belongsToRepo entries f.path) <;>
      simp [hA, hB, hZ]

theorem splitSegs_ne_nil : ∀ (l : List Char), splitSegs l ≠ []
  | [] => by simp [splitSegs]
  | c :: cs => by
    unfold splitSegs
    cases h : splitSegs cs with
    | nil => simp
    | cons s rest => by_cases hc : c = '/' <;> simp [hc]

theorem splitSegs_cons_slash (l : List Char) :
    splitSegs ('/' :: l) = [] :: splitSegs l := by
  simp only [splitSegs]
  cases h : splitSegs l with
  | nil => exact absurd h (splitSegs_ne_nil l)
  | cons s rest => simp

theorem splitSegs_cons_of_ne (c : Char) (l : List Char) (s : List Char)
    (rest : List (List Char)) (hc : c ≠ '/') (h : splitSegs l = s :: rest) :
    splitSegs (c :: l) = (c :: s) :: rest := by
  unfold splitSegs
  rw [h]
  simp [hc]

theorem splitSegs_append_slash (xs ys : List Char) :
    splitSegs (xs ++ '/' :: ys) = splitSegs xs ++ splitSegs ys := by
  induction xs with
  | nil => rw [List.nil_append, splitSegs_cons_slash]; rfl
  | cons c cs ih =>
    rw [List.cons_append]
    cases h : splitSegs cs with
    | nil => exact absurd h (splitSegs_ne_nil cs)
    | cons s rest =>
      by_cases hc : c = '/'
      · subst hc
        rw [splitSegs_cons_slash, splitSegs_cons_slash, ih, h]
        simp
      · have h2 : splitSegs (cs ++ '/' :: ys) = s :: (rest ++ splitSegs ys) := by
          rw [ih, h, List.cons_append]
        rw [splitSegs_cons_of_ne c _ _ _ hc h2,
          splitSegs_cons_of_ne c cs s rest hc h, List.cons_append]

theorem joinSegs_splitSegs : ∀ (l : List Char), joinSegs (splitSegs l) = l := by
  intro l
  induction l with
  | nil => rfl
  | cons c cs ih =>
    cases h : splitSegs cs with
    | nil => exact absurd h (splitSegs_ne_nil cs)
    | cons s rest =>
      rw [h] at ih
      by_cases hc : c = '/'
      · subst hc
        rw [splitSegs_cons_slash, h]
        show '/' :: joinSegs (s :: rest) = '/' :: cs
        rw [ih]
      · rw [splitSegs_cons_of_ne c cs s rest hc h]
        cases rest with
        | nil =>
          show c :: s = c :: cs
          rw [show joinSegs [s] = s from rfl] at ih
          rw [ih]
        | cons s2 rest2 =>
          show (c :: s) ++ '/' :: joinSegs (s2 :: rest2) = c :: cs
          rw [show joinSegs (s :: s2 :: rest2) =
            s ++ '/' :: joinSegs (s2 :: rest2) from rfl] at ih
          rw [List.cons_append, ih]

theorem joinSegs_append : ∀ (a b : List (List Char)), a ≠ [] → b ≠ [] →
    joinSegs (a ++ b) = joinSegs a ++ '/' :: joinSegs b := by
  intro a
  induction a with
  | nil => intro b h hb; exact absurd rfl h
  | cons s a' ih =>
    intro b ha hb
    cases a' with
    | nil =>
      cases b with
      | nil => exact absurd rfl hb
      | cons s2 b' => rfl
    | cons s2 a'' =>
      rw [List.cons_append]
      show s ++ '/' :: joinSegs ((s2 :: a'') ++ b) =
        (s ++ '/' :: joinSegs (s2 :: a'')) ++ '/' :: joinSegs b
      rw [ih b (by simp) hb]
      simp [List.append_assoc]

theorem foldl_cleanStep_simple (rooted : Bool) :
    ∀ (segs : List (List Char)) (st : List (List Char)),
      (∀ s ∈ segs, simpleSeg s = true) →
      segs.foldl (cleanStep rooted) st = segs.reverse ++ st := by
  intro segs
  induction segs with
  | nil => intro st h; simp
  | cons s rest ih =>
    intro st h
    have hs : simpleSeg s = true := h s (by simp)
    simp only [simpleSeg, Bool.and_eq_true, decide_eq_true_eq] at hs
    have hstep : cleanStep rooted st s = s :: st := by
      unfold cleanStep
      rw [if_neg (fun hor => hor.elim hs.1.1 hs.1.2), if_neg hs.2]
    rw [List.foldl_cons, hstep, ih _ (fun x hx => h x (by simp [hx]))]
    simp

theorem simpleRel_all (p : List Char) (hp : simpleRel p = true) :
    ∀ s ∈ splitSegs p, simpleSeg s = true := by
  simpa [simpleRel, List.all_eq_true] using hp

/-- `path.Clean` is the identity on a plain absolute path followed by a
plain relative path — the shape every in-tree file's absolutised name
takes. -/
theorem goPathClean_fix (rest p : List Char)
    (hrest : simpleRel rest = true) (hp : simpleRel p = true) :
    goPathClean ('/' :: (rest ++ '/' :: p)) = '/' :: (rest ++ '/' :: p) := by
  have hall : ∀ s ∈ splitSegs rest ++ splitSegs p, simpleSeg s = true := by
    intro s hs
    rcases List.mem_append.mp hs with h | h
    · exact simpleRel_all rest hrest s h
    · exact simpleRel_all p hp s h
  have hsegs : splitSegs ('/' :: (rest ++ '/' :: p)) =
      [] :: (splitSegs rest ++ splitSegs p) := by
    rw [splitSegs_cons_slash, splitSegs_append_slash]
  have hfold : ([] :: (splitSegs rest ++ splitSegs p)).foldl
      (cleanStep true) [] = (splitSegs rest ++ splitSegs p).reverse := by
    rw [List.foldl_cons, show cleanStep true [] [] = [] from rfl,
      foldl_cleanStep_simple true _ [] hall, List.append_nil]
  have hjoin : joinSegs (splitSegs rest ++ splitSegs p) = rest ++ '/' :: p := by
    rw [joinSegs_append _ _ (splitSegs_ne_nil rest) (splitSegs_ne_nil p),
      joinSegs_splitSegs, joinSegs_splitSegs]
  unfold goPathClean
  rw [if_neg (by simp)]
  simp only [List.head?_cons]
  rw [show (decide True) = true from by decide]
  rw [hsegs, List.foldl_cons,
    show cleanStep true [] [] = ([] : List (List Char)) from rfl,
    foldl_cleanStep_simple true _ [] hall, List.append_nil,
    List.reverse_reverse, hjoin]
  simp

theorem simpleRel_head_ne_slash (p : List Char) (hp : simpleRel p = true) :
    ¬(p.head? = some ('/' : Char)) := by
  cases p with
  | nil => simp
  | cons c t =>
    intro h
    simp only [List.head?_cons, Option.some.injEq] at h
    subst h
    rw [simpleRel, splitSegs_cons_slash] at hp
    simp [simpleSeg] at hp

/-- With a plain absolute working directory and a plain relative entry
name, `path.Clean(filepath.Abs(name))` is exactly `cwd + "/" + name`. -/
theorem resolvedPath_simple (cwd name : String)
    (hc : cwdOk cwd = true) (hn : simpleRel name.data = true) :
    resolvedPath cwd name = cwd.data ++ '/' :: name.data := by
  unfold cwdOk at hc
  cases hcd : cwd.data with
  | nil => rw [hcd] at hc; simp at hc
  | cons c rest =>
    rw [hcd] at hc
    simp only [Bool.and_eq_true, decide_eq_true_eq] at hc
    obtain ⟨hslash, hrest⟩ := hc
    subst hslash
    unfold resolvedPath filepathAbs
    rw [if_neg (simpleRel_head_ne_slash name.data hn), hcd, List.cons_append,
      goPathClean_fix rest name.data hrest hn,
      goPathClean_fix rest name.data hrest hn]

/-- Any entry whose name is a plain relative path passes the path-safety
check when the working directory is a plain absolute path. -/
theorem hasValidPath_of_simple (cwd : String) (f : repositoryFile)
    (hc : cwdOk cwd = true) (hn : simpleRel f.Name.data = true) :
    f.HasValidPath cwd = true := by
  unfold repositoryFile.HasValidPath
  rw [resolvedPath_simple cwd f.Name hc hn]
  exact containsSub_of_isPrefixL (isPrefixL_self_append _ _)

theorem createRepo_eq (root : String) (fs : FS) :
    createRepo root fs =
      ((walkFiles root fs).filter (fun f => !f.isDir)).map
        (fun f => ⟨f.path, calculateHash f.content⟩) := by
  unfold createRepo
  generalize walkFiles root fs = l
  suffices h : ∀ (l : FS) (acc : List repositoryFile),
      l.foldl (fun acc f => if f.isDir then acc
        else acc ++ [⟨f.path, calculateHash f.content⟩]) acc =
      acc ++ (l.filter (fun f => !f.isDir)).map
        (fun f => ⟨f.path, calculateHash f.content⟩) by
    rw [h l []]
    simp
  intro l
  induction l with
  | nil => intro acc; simp
  | cons f rest ih =>
    intro acc
    rw [List.foldl_cons]
    cases hd : f.isDir <;>
      simp [hd, ih, List.filter_cons, List.append_assoc]

theorem fsOpen_mem_nodup (fs : FS) (g : GoFile) (hg : g ∈ fs)
    (hnd : (fs.map GoFile.path).Nodup) :
    fsOpen fs g.path = some g := by
  unfold fsOpen
  have hex : (fs.find? (fun x => decide (x.path = g.path))).isSome :=
    List.find?_isSome.mpr ⟨g, hg, by simp⟩
  obtain ⟨g', hg'⟩ := Option.isSome_iff_exists.mp hex
  rw [hg']
  have h1 := List.find?_some hg'
  have h2 := List.mem_of_find?_eq_some hg'
  simp only [decide_eq_true_eq] at h1
  rw [List.inj_on_of_nodup_map hnd h2 hg h1]

/-- Folding the classification step over entries that are all path-valid
and all classify as `OK` adds nothing to the download list and emits only
`OK` classification verdicts. -/
theorem classify_ok_fold (cwd : String) (fs : FS) :
    ∀ (l : List repositoryFile) (st : ClassifyState),
      (∀ rf ∈ l, rf.HasValidPath cwd = true ∧
        classifyOutcome fs rf = .ok) →
      ((l.foldl (classifyStep cwd fs) st).downloads = st.downloads ∧
       (∀ n s, Event.classify n s ∈ (l.foldl (classifyStep cwd fs) st).events →
          Event.classify n s ∈ st.events ∨ s = .ok)) := by
  intro l
  induction l with
  | nil => intro st h; exact ⟨rfl, fun n s hs => Or.inl hs⟩
  | cons rf rest ih =>
    intro st h
    have hrf := h rf (by simp)
    rw [List.foldl_cons]
    have hdl : (classifyStep cwd fs st rf).downloads = st.downloads := by
      unfold classifyStep
      rw [if_pos hrf.1, hrf.2]
      simp
    have hev : (classifyStep cwd fs st rf).events =
        st.events ++ [.openF rf.Name, .classify rf.Name .ok] := by
      unfold classifyStep
      rw [if_pos hrf.1, hrf.2]
    obtain ⟨ihd, ihe⟩ := ih (classifyStep cwd fs st rf)
      (fun x hx => h x (by simp [hx]))
    refine ⟨by rw [ihd, hdl], ?_⟩
    intro n s hs
    rcases ihe n s hs with hin | hok
    · rw [hev] at hin
      rcases List.mem_append.mp hin with h1 | h2
      · exact Or.inl h1
      · simp only [List.mem_cons, List.mem_singleton] at h2
        rcases h2 with h2 | h2 | h2
        · exact absurd h2 (by simp)
        · injection h2 with hn' hs'
          exact Or.inr hs'
        · exact absurd h2 (List.not_mem_nil _)
    · exact Or.inr hok

/-! ## Claim theorems -/

/-- C1 (as stated, first half — part of the amended claim): every manifest
entry whose name resolves (after absolutisation and cleaning) to a
location strictly inside the working directory tree passes
`HasValidPath`. -/
theorem c1_inside_implies_valid (cwd : String) (f : repositoryFile)
    (h : insideTree cwd.data (resolvedPath cwd f.Name) = true) :
    f.HasValidPath cwd = true := by
  have h1 : isPrefixL (cwd.data ++ ['/']) (resolvedPath cwd f.Name) = true := by
    unfold insideTree at h
    exact ((Bool.and_eq_true _ _).mp h).1
  exact containsSub_of_isPrefixL (isPrefixL_of_append_left h1)

/-- C1 witness: with working directory `/w`, the entry `d/a` resolves to
`/w/d/a`, strictly inside, and `HasValidPath` accepts it. -/
theorem c1_witness :
    insideTree "/w".data (resolvedPath "/w" "d/a") = true ∧
    (⟨"d/a", ""⟩ : repositoryFile).HasValidPath "/w" = true :=
  ⟨by decide, c1_inside_implies_valid "/w" ⟨"d/a", ""⟩ (by decide)⟩

/-- C1 counterexample: the second half of the claim is false.  With
working directory `/w`, the entry `../wx/f` resolves to `/wx/f` — outside
the working tree — yet `HasValidPath` returns `true`, because
`strings.Contains` finds `/w` as a substring of `/wx/f`.  Such an entry is
downloaded and pruning-considered like any valid one. -/
theorem c1_counterexample :
    resolvedPath "/w" "../wx/f" = "/wx/f".data ∧
    insideTree "/w".data (resolvedPath "/w" "../wx/f") = false ∧
    (⟨"../wx/f", ""⟩ : repositoryFile).HasValidPath "/w" = true := by
  decide

/-- C2 (amended): an entry failing the path-safety check is invisible to
the classification pass — it is never opened, never classified, never
added to the download set, and contributes no directory to the
prune-directory list: the entire classification output equals that of the
valid-entry sublist. (The prune walk, by contrast, compares walked files
against *all* parsed entries — see `c2_counterexample`.) -/
theorem c2_invalid_entries_classification_inert (cwd : String)
    (entries : List repositoryFile) (fs : FS) :
    classifyPhase cwd entries fs =
      classifyPhase cwd (entries.filter (fun rf => rf.HasValidPath cwd)) fs :=
  classifyFoldl_filter cwd fs entries ⟨[], [], []⟩

/-- C2 counterexample: an invalid-path entry *is* taken into account when
deciding whether a walked file belongs to the repository.  Working
directory `/w`; entry `../w2/a` is (bogusly, see C1) path-valid and makes
`..` a prune directory; entry `../secret` is path-invalid.  The prune walk
of `..` visits `../secret`, finds it equal to the invalid entry's name,
and spares it — whereas the same run with the invalid entry removed
deletes `../secret`.  So the run is *not* the run on the valid sublist,
refuting "never taken into account in any pruning decision". -/
theorem c2_counterexample :
    ((⟨"../secret", ""⟩ : repositoryFile).HasValidPath "/w" = false) ∧
    reconcile "/w" "" [⟨"../w2/a", ""⟩, ⟨"../secret", ""⟩]
        (fun _ => FetchResult.connError)
        [⟨"../w2/a", false, []⟩, ⟨"../secret", false, []⟩] ≠
      reconcile "/w" ""
        ([⟨"../w2/a", ""⟩, ⟨"../secret", ""⟩].filter
          (fun rf => rf.HasValidPath "/w"))
        (fun _ => FetchResult.connError)
        [⟨"../w2/a", false, []⟩, ⟨"../secret", false, []⟩] ∧
    (reconcile "/w" "" [⟨"../w2/a", ""⟩, ⟨"../secret", ""⟩]
        (fun _ => FetchResult.connError)
        [⟨"../w2/a", false, []⟩, ⟨"../secret", false, []⟩]).1 =
      [⟨"../w2/a", false, []⟩, ⟨"../secret", false, []⟩] ∧
    (reconcile "/w" "" ([⟨"../w2/a", ""⟩, ⟨"../secret", ""⟩].filter
          (fun rf => rf.HasValidPath "/w"))
        (fun _ => FetchResult.connError)
        [⟨"../w2/a", false, []⟩, ⟨"../secret", false, []⟩]).1 =
      [⟨"../w2/a", false, []⟩] := by
  decide

/-- C3: the chunked read loop of `calculateHash` does **not** hash exactly
the bytes of the stream.  On the one-byte stream `[0x61]` it feeds the
hasher the full 1 MiB buffer — the one real byte followed by 1048575
zero-initialised buffer bytes — because `hash.Write(data)` writes the
whole buffer instead of `data[:n]`.  The digest is therefore not the SHA-1
of the stream's bytes, contradicting the claim and the spec's explicit
requirement; the spec is the intent (the hash doubles as the
post-download integrity proof), so this is a code bug. -/
theorem c3_hash_chunk_bug :
    hashedBytes [97] ≠ [97] ∧ (hashedBytes [97]).length = 1024 * 1024 := by
  constructor
  · intro h
    have hlen := congrArg List.length h
    rw [hashedBytes_singleton_length] at hlen
    rw [List.length_cons, List.length_nil] at hlen
    norm_num [bufSize] at hlen
  · rw [hashedBytes_singleton_length]
    rfl

/-- C4: in every run, the event trace decomposes into a block of
classification events (file opens and verdicts), followed by a block of
prune deletions, followed by a block of download writes — classification
of *all* entries (and with it the prune-directory collection) completes
before any deletion, and all pruning completes before any download write.
Consequently no file written by the download phase is examined or deleted
by the prune phase of the same run, and the prune phase receives the
complete entry list (`reconcile` passes `entries` whole to
`prunePhase`). -/
theorem c4_phase_ordering (cwd : String) (m : ManifestFetch)
    (fetch : String → FetchResult) (fs : FS) :
    ∃ a b c, (updateFiles cwd m fetch fs).2.2 = a ++ b ++ c ∧
      (∀ e ∈ a, e.isClassifyKind = true) ∧
      (∀ e ∈ b, e.isRemoveKind = true) ∧
      (∀ e ∈ c, e.isWriteKind = true) := by
  by_cases h : (getRepositoryContent m).2.1 = []
  · refine ⟨[], [], [], ?_, ?_, ?_, ?_⟩
    · rw [updateFiles_no_entries cwd m fetch fs h]
      rfl
    · intro e he; exact absurd he (List.not_mem_nil e)
    · intro e he; exact absurd he (List.not_mem_nil e)
    · intro e he; exact absurd he (List.not_mem_nil e)
  · rw [updateFiles_eq_reconcile cwd m fetch fs h, reconcile_trace]
    refine ⟨_, _, _, rfl, ?_, ?_, ?_⟩
    · exact classify_events_kind cwd fs _ _
        (fun e he => absurd he (List.not_mem_nil e))
    · exact prune_events_kind _ _ _
        (fun e he => absurd he (List.not_mem_nil e))
    · exact download_events_kind _ _ _ _
        (fun e he => absurd he (List.not_mem_nil e))

/-- C5: on a duplicate-free filesystem, pruning keeps exactly the nodes
that are directories, or lie under none of the walked prune directories,
or whose path string-equals some manifest entry's `Name` — equivalently,
it deletes exactly the regular files under a prune directory that match no
entry.  Directories are never deleted, files matching an entry are
untouched, and nothing outside the walked directories is affected.
(`reconcile` instantiates `dirs` with the managed set collected by the
classification pass: the distinct first path segments of the path-valid
entries.) -/
theorem c5_prune_deletes_exactly (entries : List repositoryFile) (fs : FS)
    (dirs : List String) (hnd : (fs.map GoFile.path).Nodup) :
    (prunePhase entries fs dirs).1 =
      fs.filter (fun f => f.isDir ||
        !(dirs.any (fun d => underDir d f.path)) ||
        belongsToRepo entries f.path) := by
  unfold prunePhase
  rw [prunePhase_fst entries dirs fs [] hnd]
  apply List.filter_congr
  intro f _
  cases hD : f.isDir <;>
    cases hA : dirs.any (fun d => underDir d f.path) <;>
    cases hB : belongsToRepo entries f.path <;>
    simp [hD, hA, hB]

/-- C5 witness: the spec's pruning scenario.  `mods/a.txt` is in the
manifest, `mods/orphan.txt` is not; after pruning the orphan is gone, the
manifest file and the `mods` directory node survive, and a file outside
the managed directory is untouched. -/
theorem c5_witness :
    (([⟨"mods", true, []⟩, ⟨"mods/a.txt", false, [1]⟩,
        ⟨"mods/orphan.txt", false, [2]⟩, ⟨"other/keep.txt", false, [3]⟩] :
          FS).map GoFile.path).Nodup ∧
    (prunePhase [⟨"mods/a.txt", "h"⟩]
        [⟨"mods", true, []⟩, ⟨"mods/a.txt", false, [1]⟩,
         ⟨"mods/orphan.txt", false, [2]⟩, ⟨"other/keep.txt", false, [3]⟩]
        ["mods"]).1 =
      [⟨"mods", true, []⟩, ⟨"mods/a.txt", false, [1]⟩,
       ⟨"other/keep.txt", false, [3]⟩] :=
  ⟨by decide, by
    rw [c5_prune_deletes_exactly [⟨"mods/a.txt", "h"⟩]
      [⟨"mods", true, []⟩, ⟨"mods/a.txt", false, [1]⟩,
       ⟨"mods/orphan.txt", false, [2]⟩, ⟨"other/keep.txt", false, [3]⟩]
      ["mods"] (by decide)]
    decide⟩

/-- C6: download failures are isolated per entry and the batch is never
aborted.  The download phase equals, in one characterisation: the final
filesystem is the left fold of each entry's individual effect (`dlApply`:
a status-200 fetch to an openable target writes the body — even when its
checksum then mismatches, so the file is left on disk; a connection error
or non-200 status writes nothing); the error count is exactly the number
of entries that individually fail (`dlFails`: connection error, non-200
status, unopenable target, or checksum mismatch); and a write event
occurs exactly for each entry whose transport succeeded.  Every entry is
processed regardless of other entries' failures. -/
theorem c6_download_failures_isolated (droot : String)
    (fetch : String → FetchResult) (entries : List repositoryFile)
    (fs : FS) :
    downloadPhase droot fetch entries fs =
      (entries.foldl (dlApply droot fetch) fs,
       (entries.filter (dlFails droot fetch fs)).length,
       (entries.filter (dlWrites droot fetch fs)).map
         (fun rf => Event.write rf.Name)) := by
  have h := downloadFold_shift droot fetch entries (fs, 0, [])
  simpa [downloadPhase] using h

/-- C7: a manifest payload that is structurally invalid at the top level
(unparseable bytes, a non-object document, or a non-array `Files` field)
yields zero parsed entries — `json.Unmarshal`'s ignored error leaves the
`repository` value zeroed — so `updateFiles` returns before the
classification, pruning and download phases: the filesystem is untouched,
no errors are counted and no event occurs.  By contrast an individually
malformed `Files` entry is merely skipped: the other entries parse exactly
as they would without it, so the run proceeds on them. -/
theorem c7_top_invalid_aborts_without_mutation :
    (∀ (cwd : String) (m : ManifestFetch) (fetch : String → FetchResult)
        (fs : FS), manifestTopInvalid m = true →
        updateFiles cwd m fetch fs = (fs, 0, [])) ∧
    (∀ (l1 l2 : List (List String)) (e : List String), e.length ≠ 2 →
        (parseEntries (l1 ++ e :: l2)).1 = (parseEntries (l1 ++ l2)).1) := by
  constructor
  · intro cwd m fetch fs h
    exact updateFiles_no_entries cwd m fetch fs
      (getRepositoryContent_topInvalid m h)
  · intro l1 l2 e h
    exact (parseEntries_skip_bad l1 l2 e h).1

/-- C7 witness: a status-200 response whose body is not valid JSON leaves
a nonempty local tree untouched; and a 3-element entry between two good
entries is dropped while they survive. -/
theorem c7_witness :
    (manifestTopInvalid (ManifestFetch.resp 200 none) = true ∧
      updateFiles "/w" (ManifestFetch.resp 200 none)
        (fun _ => FetchResult.connError) [⟨"mods/a", false, [1]⟩] =
        ([⟨"mods/a", false, [1]⟩], 0, [])) ∧
    ((["x", "y", "z"] : List String).length ≠ 2 ∧
      (parseEntries [["a", "b"], ["x", "y", "z"], ["c", "d"]]).1 =
        (parseEntries [["a", "b"], ["c", "d"]]).1) :=
  ⟨⟨by decide, c7_top_invalid_aborts_without_mutation.1 "/w"
      (ManifestFetch.resp 200 none) (fun _ => FetchResult.connError)
      [⟨"mods/a", false, [1]⟩] (by decide)⟩,
   ⟨by decide, c7_top_invalid_aborts_without_mutation.2 [["a", "b"]]
      [["c", "d"]] ["x", "y", "z"] (by decide)⟩⟩

/-- C8: a `Files` entry whose arity is not exactly 2 is skipped with one
diagnostic (`"Files entry does not contain 2 items"`): the parsed entry
list is exactly the one obtained without the malformed entry, the
diagnostic count rises by one, and parsing of the remaining entries is
unaffected — the skip is never fatal to the manifest. -/
theorem c8_malformed_entry_skipped (l1 l2 : List (List String))
    (e : List String) (h : e.length ≠ 2) :
    (parseEntries (l1 ++ e :: l2)).1 = (parseEntries (l1 ++ l2)).1 ∧
    (parseEntries (l1 ++ e :: l2)).2 = (parseEntries (l1 ++ l2)).2 + 1 :=
  parseEntries_skip_bad l1 l2 e h

/-- C8 witness: a 3-element entry between `["a","b"]` and `["c","d"]` is
skipped with one diagnostic while both neighbours parse. -/
theorem c8_witness :
    (["x", "y", "z"] : List String).length ≠ 2 ∧
    ((parseEntries [["a", "b"], ["x", "y", "z"], ["c", "d"]]).1 =
        (parseEntries [["a", "b"], ["c", "d"]]).1 ∧
      (parseEntries [["a", "b"], ["x", "y", "z"], ["c", "d"]]).2 =
        (parseEntries [["a", "b"], ["c", "d"]]).2 + 1) :=
  ⟨by decide,
   c8_malformed_entry_skipped [["a", "b"]] [["c", "d"]] ["x", "y", "z"]
     (by decide)⟩

/-- C9: round trip.  Build a manifest from a directory tree with
`createRepo` (hash every regular file under the root), then reconcile the
*same unchanged* filesystem against those entries: with a plain absolute
working directory, plain relative file paths and no duplicate paths, the
classification pass classifies every entry `OK` (its hash comparison
succeeds) and the download set comes out empty. -/
theorem c9_roundtrip (cwd root : String) (fs : FS)
    (hc : cwdOk cwd = true)
    (hsimple : ∀ g ∈ fs, simpleRel g.path.data = true)
    (hnd : (fs.map GoFile.path).Nodup) :
    (classifyPhase cwd (createRepo root fs) fs).downloads = [] ∧
    (∀ n s, Event.classify n s ∈
        (classifyPhase cwd (createRepo root fs) fs).events →
      s = FileStatus.ok) := by
  have hall : ∀ rf ∈ createRepo root fs,
      rf.HasValidPath cwd = true ∧ classifyOutcome fs rf = .ok := by
    intro rf hrf
    rw [createRepo_eq] at hrf
    obtain ⟨g, hgmem, rfl⟩ := List.mem_map.mp hrf
    have hgfs : g ∈ fs := (List.mem_filter.mp (List.mem_filter.mp hgmem).1).1
    constructor
    · exact hasValidPath_of_simple cwd _ hc (hsimple g hgfs)
    · unfold classifyOutcome
      rw [show (⟨g.path, calculateHash g.content⟩ : repositoryFile).Name
          = g.path from rfl, fsOpen_mem_nodup fs g hgfs hnd]
      simp [repositoryFile.CheckHash]
  obtain ⟨h1, h2⟩ := classify_ok_fold cwd fs (createRepo root fs)
    ⟨[], [], []⟩ hall
  refine ⟨h1, ?_⟩
  intro n s hs
  rcases h2 n s hs with hin | hok
  · exact absurd hin (List.not_mem_nil _)
  · exact hok

/-- C9 witness: working directory `/w`, tree `d/a` and `d/sub/b`; the
manifest built from it reconciles against the unchanged tree with an
empty download set and only `OK` verdicts. -/
theorem c9_witness :
    (cwdOk "/w" = true ∧
      (∀ g ∈ ([⟨"d/a", false, [3]⟩, ⟨"d/sub/b", false, []⟩] : FS),
        simpleRel g.path.data = true) ∧
      (([⟨"d/a", false, [3]⟩, ⟨"d/sub/b", false, []⟩] : FS).map
        GoFile.path).Nodup) ∧
    ((classifyPhase "/w"
        (createRepo "d" [⟨"d/a", false, [3]⟩, ⟨"d/sub/b", false, []⟩])
        [⟨"d/a", false, [3]⟩, ⟨"d/sub/b", false, []⟩]).downloads = [] ∧
      (∀ n s, Event.classify n s ∈
          (classifyPhase "/w"
            (createRepo "d" [⟨"d/a", false, [3]⟩, ⟨"d/sub/b", false, []⟩])
            [⟨"d/a", false, [3]⟩, ⟨"d/sub/b", false, []⟩]).events →
        s = FileStatus.ok)) :=
  ⟨⟨by decide, by decide, by decide⟩,
   c9_roundtrip "/w" "d" [⟨"d/a", false, [3]⟩, ⟨"d/sub/b", false, []⟩]
     (by decide) (by decide) (by decide)⟩

/-- C10: whenever the fetched manifest yields zero valid 2-element entries
(empty or absent `Files` list, all entries malformed, fetch failure, … —
any case with an empty parsed list), `updateFiles` returns before the
classification, pruning and download phases: no filesystem mutation, no
errors, no events. -/
theorem c10_no_valid_entries_no_mutation (cwd : String) (m : ManifestFetch)
    (fetch : String → FetchResult) (fs : FS)
    (h : (getRepositoryContent m).2.1 = []) :
    updateFiles cwd m fetch fs = (fs, 0, []) :=
  updateFiles_no_entries cwd m fetch fs h

/-- C10 witness: a well-formed manifest whose single `Files` entry has
arity 1 parses to zero entries, and the run leaves a nonempty local tree
untouched. -/
theorem c10_witness :
    (getRepositoryContent (ManifestFetch.resp 200 (some (Json.obj
        [("Files", Json.arr [Json.arr [Json.str "a"]])])))).2.1 = [] ∧
    updateFiles "/w"
        (ManifestFetch.resp 200 (some (Json.obj
          [("Files", Json.arr [Json.arr [Json.str "a"]])])))
        (fun _ => FetchResult.connError) [⟨"mods/orphan", false, [7]⟩] =
      ([⟨"mods/orphan", false, [7]⟩], 0, []) :=
  ⟨by decide,
   c10_no_valid_entries_no_mutation "/w"
     (ManifestFetch.resp 200 (some (Json.obj
       [("Files", Json.arr [Json.arr [Json.str "a"]])])))
     (fun _ => FetchResult.connError) [⟨"mods/orphan", false, [7]⟩]
     (by decide)⟩

end Updater
